import Mathlib

/-!
Verification of the role-reconciliation engine, the onboarding message
scheduler, and the job-posting pipeline stages (blocklist, locations)
of the junior.guru community automation codebase, via a shallow
embedding of the relevant Python functions into Lean.
-/

namespace JuniorGuru

open List (Perm Sublist)

open scoped List

/-! ## Role reconciliation (`juniorguru/sync/roles.py`) -/

/-- A reconciliation change, the unit of output of `evaluate_changes`:
the Python triple `(member_id, op, role_id)` with `op ∈ {'add', 'remove'}`. -/
abbrev Change : Type := Nat × String × Nat

/-- Embedding of `evaluate_changes` (`roles.py`, lines 251-256).
Membership tests on Python collections become list membership. -/
def evaluate_changes (member_id : Nat) (initial_roles_ids : List Nat)
    (role_members_ids : List Nat) (role_id : Nat) : List Change :=
  if member_id ∈ role_members_ids ∧ role_id ∉ initial_roles_ids then
    [(member_id, "add", role_id)]
  else if member_id ∉ role_members_ids ∧ role_id ∈ initial_roles_ids then
    [(member_id, "remove", role_id)]
  else
    []

/-- A managed role as used in `discord_task` (`roles.py`): a role id paired
with the rule-derived target collection of member ids. -/
abbrev ManagedRole : Type := Nat × List Nat

/-- The changes accumulated for one member across all managed roles, as in the
`changes.extend(evaluate_changes(member.id, member.initial_roles, ids, role_id))`
loops of `discord_task` (`roles.py`, lines 89-166), restricted to one member. -/
def memberChanges (member_id : Nat) (initial_roles_ids : List Nat)
    (managed : List ManagedRole) : List Change :=
  (managed.map (fun r => evaluate_changes member_id initial_roles_ids r.2 r.1)).flatten

/-- The `changes_by_members[member_id]['add']` batch built by `apply_changes`
(`roles.py`, lines 223-226): the role ids of this member's `add` changes. -/
def addedRoles (member_id : Nat) (changes : List Change) : List Nat :=
  changes.filterMap
    (fun c => if c.1 = member_id ∧ c.2.1 = "add" then some c.2.2 else none)

/-- The `changes_by_members[member_id]['remove']` batch built by
`apply_changes` (`roles.py`, lines 223-226). -/
def removedRoles (member_id : Nat) (changes : List Change) : List Nat :=
  changes.filterMap
    (fun c => if c.1 = member_id ∧ c.2.1 = "remove" then some c.2.2 else none)

/-- Embedding of `apply_changes` (`roles.py`, lines 216-243) from the point of
view of a single member: the changes are grouped, the `add` role ids are applied
as one batch and then the `remove` role ids as another batch, so the member's
resulting role-id set is `(initial ∪ adds) \ removes`. -/
def applyMemberChanges (member_id : Nat) (initial_roles_ids : List Nat)
    (changes : List Change) : List Nat :=
  (initial_roles_ids ++ addedRoles member_id changes).filter
    (fun r => r ∉ removedRoles member_id changes)

/-- Stable insertion into a list sorted by count descending: the new element
goes in front of the first element whose count is not larger.  Models the
stability of Python's `sorted(..., key=itemgetter(1), reverse=True)` used by
`Counter.most_common`. -/
def insertByCountDesc (x : Nat × Nat) : List (Nat × Nat) → List (Nat × Nat)
  | [] => [x]
  | y :: ys => if y.2 ≤ x.2 then x :: y :: ys else y :: insertByCountDesc x ys

/-- Stable sort by count descending, the ordering contract of
`Counter.most_common()`. -/
def sortByCountDesc (l : List (Nat × Nat)) : List (Nat × Nat) :=
  l.foldr insertByCountDesc []

/-- Embedding of `calc_stats` (`roles.py`, lines 246-248): build the
`member.id ↦ calc_member_fn(member)` table, order it by count descending
(stably, ties in iteration order, per `Counter.most_common`), and keep the
first `top_members_limit` entries. -/
def calc_stats (members : List Nat) (calc_member_fn : Nat → Nat)
    (top_members_limit : Nat) : List (Nat × Nat) :=
  (sortByCountDesc (members.map (fun i => (i, calc_member_fn i)))).take top_members_limit

/-! ## Onboarding scheduled messages (`juniorguru/sync/onboarding.py`)

The onboarding module itself is not part of the sources at hand; only its unit
tests (`src/tests/test_sync_onboarding.py`) are.  The definitions below are
therefore modelled from the specification's §4.2 and validated against those
unit tests.  Message content is modelled as a list of characters; a scheduled
message is a marker emoji (one character) paired with a content generator. -/

/-- The Discord id of the bot account, `JUNIORGURU_BOT` in `juniorguru/lib/club.py`. -/
def JUNIORGURU_BOT : Nat := 797097976571887687

/-- Modelled from the spec: the fields of a club message that the onboarding
algorithm reads — id, author, content, creation day and the count of `✅`
reactions (the "read" marker used by the reaction-count threshold). -/
structure ClubMessage where
  id : Nat
  authorId : Nat
  content : List Char
  createdDay : Nat
  checkReactions : Nat
deriving DecidableEq

/-- Modelled from the spec: a message counts as "read" when its `✅`
reaction count passes the threshold — more than the single reaction the bot
itself adds (the unit tests use `{'✅': 1}` for unread and `{'✅': 2}` for read). -/
def isRead (m : ClubMessage) : Bool := 1 < m.checkReactions

/-- Modelled from the spec: an ordered sequence of (marker-emoji,
content-generator) pairs, the "script" walked through over time. -/
abbrev ScheduledMessages (γ : Type) : Type := List (Char × (γ → List Char))

/-- Modelled from the spec: the rendered content of a scheduled message — the
marker emoji, a space, and the generator's output. -/
def render (marker : Char) (body : List Char) : List Char := marker :: ' ' :: body

/-- The last bot message in the history whose content starts with the given
marker emoji. -/
def lastMarked (marker : Char) (history : List ClubMessage) : Option ClubMessage :=
  (history.filter
    (fun m => m.authorId == JUNIORGURU_BOT && m.content.head? == some marker)).getLast?

/-- The last bot message in the history matching any known marker of the
scheduled sequence ("the last message matching a known marker"). -/
def lastScheduled {γ : Type} (sm : ScheduledMessages γ) (history : List ClubMessage) :
    Option ClubMessage :=
  (history.filter
    (fun m => m.authorId == JUNIORGURU_BOT &&
      sm.any (fun p => m.content.head? == some p.1))).getLast?

/-- A message operation: `(none, content)` sends a new message,
`(some id, content)` edits message `id` in place. -/
abbrev MessageOp : Type := Option Nat × List Char

/-- Modelled from the spec: the edit operations — for every scheduled message
already present in the history whose stored content no longer matches the
generator output, edit it in place.  Does not look at dates at all. -/
def editsOf {γ : Type} (sm : ScheduledMessages γ) (history : List ClubMessage) (ctx : γ) :
    List MessageOp :=
  sm.filterMap (fun p =>
    match lastMarked p.1 history with
    | some m =>
        if m.content = render p.1 (p.2 ctx) then none
        else some (some m.id, render p.1 (p.2 ctx))
    | none => none)

/-- Modelled from the spec: a new message may go out only when the last
scheduled message is read and was not already posted today (one message per
day cap); with no scheduled history yet, sending is allowed. -/
def canSend {γ : Type} (sm : ScheduledMessages γ) (history : List ClubMessage)
    (today : Nat) : Bool :=
  match lastScheduled sm history with
  | some m => isRead m && m.createdDay != today
  | none => true

/-- Modelled from the spec: the send operation — when sending is allowed, post
the first scheduled message of the sequence that is missing from the history. -/
def sendOf {γ : Type} (sm : ScheduledMessages γ) (history : List ClubMessage)
    (today : Nat) (ctx : γ) : List MessageOp :=
  if canSend sm history today then
    match sm.find? (fun p => (lastMarked p.1 history).isNone) with
    | some p => [(none, render p.1 (p.2 ctx))]
    | none => []
  else []

/-- Modelled from the spec: `prepare_messages` of `juniorguru/sync/onboarding.py`
(absent from the sources at hand; reconstructed from §4.2 of the specification
and the unit tests in `src/tests/test_sync_onboarding.py`): emit the edits for
outdated content plus at most one send operation. -/
def prepare_messages {γ : Type} (history : List ClubMessage) (sm : ScheduledMessages γ)
    (today : Nat) (ctx : γ) : List MessageOp :=
  editsOf sm history ctx ++ sendOf sm history today ctx

/-- A freshly sent bot message: posted today, carrying only the bot's own `✅`
reaction. -/
def newMessage (newId today : Nat) (content : List Char) : ClubMessage :=
  { id := newId, authorId := JUNIORGURU_BOT, content := content,
    createdDay := today, checkReactions := 1 }

/-- The effect of one message operation on a channel history: an edit replaces
the content of the message with the given id, a send appends a new bot message. -/
def applyOp (today newId : Nat) (history : List ClubMessage) : MessageOp → List ClubMessage
  | (some mid, c) => history.map (fun m => if m.id = mid then { m with content := c } else m)
  | (none, c) => history ++ [newMessage newId today c]

/-- The effect of a list of message operations on a channel history. -/
def applyOps (today newId : Nat) (history : List ClubMessage) (ops : List MessageOp) :
    List ClubMessage :=
  ops.foldl (applyOp today newId) history

/-- The effect of one edit operation on one message: the content is replaced
when the ids agree, otherwise the message is untouched (send operations touch
no existing message). -/
def editStep (m : ClubMessage) (op : MessageOp) : ClubMessage :=
  match op.1 with
  | some mid => if m.id = mid then { m with content := op.2 } else m
  | none => m

/-- The cumulative effect of a list of operations on one message. -/
def editMsg (ops : List MessageOp) (m : ClubMessage) : ClubMessage :=
  ops.foldl editStep m

/-! ## Blocklist pipeline (`juniorguru/sync/jobs_scraped/pipelines/blocklist.py`)
and location pipeline (`juniorguru/sync/jobs/pipelines/locations.py`)

Regular-expression matching is modelled over character lists: a literal word
(or an alternation of literal words) searched anywhere in the value, with
word-boundary checks where the source pattern uses `\b`.  Case folding and the
word-character class cover ASCII plus the accented letters appearing in the
source patterns and data. -/

/-- Case folding as used by `re.IGNORECASE` and `str.lower`, modelled for ASCII
plus the accented letters occurring in the source's patterns and tables. -/
def foldChar (c : Char) : Char :=
  if c = 'Á' then 'á' else if c = 'É' then 'é' else if c = 'Ž' then 'ž'
  else if c = 'Ý' then 'ý' else if c = 'Ř' then 'ř' else if c = 'Č' then 'č'
  else if c = 'Š' then 'š' else if c = 'Í' then 'í' else if c = 'Ú' then 'ú'
  else c.toLower

/-- The regex word-character class `\w`, modelled for ASCII plus the accented
letters occurring in the source's patterns and data. -/
def isWordChar (c : Char) : Bool :=
  c.isAlphanum || c = '_' ||
    ['á', 'é', 'ž', 'ý', 'ř', 'č', 'š', 'í', 'ú', 'ů',
     'Á', 'É', 'Ž', 'Ý', 'Ř', 'Č', 'Š', 'Í', 'Ú'].contains c

/-- Whether the optional character left of a match position is a word
character (`none` stands for the start of the string). -/
def wordOpt : Option Char → Bool
  | none => false
  | some c => isWordChar c

/-- Does the literal match at this exact position?  `lb`/`rb` demand a word
boundary (`\b`) on the left/right of the match. -/
def matchHere (lb rb : Bool) (lit : List Char) (prev : Option Char) (s : List Char) : Bool :=
  (!lb || !wordOpt prev) && lit.isPrefixOf s && (!rb || !wordOpt ((s.drop lit.length).head?))

/-- `re.search` for a literal: try every position of the string. -/
def searchAux (lb rb : Bool) (lit : List Char) (prev : Option Char) : List Char → Bool
  | [] => matchHere lb rb lit prev []
  | c :: rest => matchHere lb rb lit prev (c :: rest) || searchAux lb rb lit (some c) rest

/-- Case-sensitive whole-word search (`re.search` of `\bword\b`), as used by
the `OPTIMIZATIONS` patterns. -/
def searchWord (lit s : String) : Bool := searchAux true true lit.data none s.data

/-- Case-insensitive search of a literal, optionally demanding a left word
boundary, as used by the `BLOCKLIST` patterns. -/
def searchCI (lb : Bool) (lit s : String) : Bool :=
  searchAux lb false (lit.data.map foldChar) none (s.data.map foldChar)

/-- A blocklist rule: the item field it inspects, the source text of its
regex, and the Lean model of the regex's `search`. -/
structure BlockRule where
  field : String
  pattern : String
  search : String → Bool

/-- Rule `('title', re.compile(r'\b(plc|cnc) programátor', re.I))`. -/
def blockRulePlcCnc : BlockRule :=
  ⟨"title", "\\b(plc|cnc) programátor",
   fun v => searchCI true "plc programátor" v || searchCI true "cnc programátor" v⟩

/-- Rule `('title', re.compile(r'elektro', re.I))`. -/
def blockRuleElektro : BlockRule :=
  ⟨"title", "elektro", fun v => searchCI false "elektro" v⟩

/-- Rule `('title', re.compile(r'\bkonstruktér', re.I))`. -/
def blockRuleKonstrukter : BlockRule :=
  ⟨"title", "\\bkonstruktér", fun v => searchCI true "konstruktér" v⟩

/-- Rule `('title', re.compile(r'\bcae inženýr', re.I))`. -/
def blockRuleCae : BlockRule :=
  ⟨"title", "\\bcae inženýr", fun v => searchCI true "cae inženýr" v⟩

/-- Rule `('title', re.compile(r'\bseřizovač', re.I))`. -/
def blockRuleSerizovac : BlockRule :=
  ⟨"title", "\\bseřizovač", fun v => searchCI true "seřizovač" v⟩

/-- Embedding of `BLOCKLIST` (`blocklist.py`, lines 6-12). -/
def BLOCKLIST : List BlockRule :=
  [blockRulePlcCnc, blockRuleElektro, blockRuleKonstrukter, blockRuleCae, blockRuleSerizovac]

/-- A scraped job item for the blocklist stage, modelled as the field-lookup
view Python's `item.get` exposes. -/
abbrev ScrapedItem : Type := String → Option String

/-- The value the blocklist reads for a field: `item.get(field) or ''` — a
missing (or empty, hence falsy) value becomes the empty string. -/
def fieldValue (item : ScrapedItem) (f : String) : String := (item f).getD ""

/-- The diagnostic message of the `DropItem` raised by the blocklist
(`blocklist.py`, line 19), with Python's `repr` of a string modelled as
single-quoting. -/
def dropItemMessage (f v p : String) : String :=
  "Blocklist rule applied: " ++ f ++ " value '" ++ v ++ "' matches '" ++ p ++ "'"

namespace Blocklist

/-- The loop body of `process` (`blocklist.py`, lines 15-20), generalized over
the rule list: scan the rules in order; the first whose pattern matches the
item's value raises `DropItem` (modelled as `Except.error` carrying the
diagnostic message); with no match the item passes through unchanged. -/
def processRules : List BlockRule → ScrapedItem → Except String ScrapedItem
  | [], item => .ok item
  | rule :: rest, item =>
      if rule.search (fieldValue item rule.field) then
        .error (dropItemMessage rule.field (fieldValue item rule.field) rule.pattern)
      else processRules rest item

/-- Embedding of `process` (`blocklist.py`, lines 15-20). -/
def process (item : ScrapedItem) : Except String ScrapedItem :=
  processRules BLOCKLIST item

end Blocklist

/-! ### Locations pipeline -/

/-- A geocoded address: the dict of `place`/`region`/`country` entries returned
by the geocoder, as an association list (`[]` models both Python's `None` and
the empty, falsy dict). -/
abbrev Address : Type := List (String × String)

/-- A geocode function: either an address or a raised exception
(`Except.error`). -/
abbrev Geocode : Type := String → Except String Address

/-- A fast-path entry of `OPTIMIZATIONS` (`locations.py`, lines 18-25): the
regex source text, the Lean model of its `search`, and the hardcoded address. -/
structure Optimization where
  pattern : String
  search : String → Bool
  value : Address

/-- Entry `(r'\bPraha\b', {'place': 'Praha', 'region': 'Praha', 'country': 'Česko'})`. -/
def optPraha : Optimization :=
  ⟨"\\bPraha\\b", fun s => searchWord "Praha" s,
   [("place", "Praha"), ("region", "Praha"), ("country", "Česko")]⟩

/-- Entry `(r'\bPrague\b', {'place': 'Praha', 'region': 'Praha', 'country': 'Česko'})`. -/
def optPrague : Optimization :=
  ⟨"\\bPrague\\b", fun s => searchWord "Prague" s,
   [("place", "Praha"), ("region", "Praha"), ("country", "Česko")]⟩

/-- Entry `(r'\bBrno\b', {'place': 'Brno', 'region': 'Brno', 'country': 'Česko'})`. -/
def optBrno : Optimization :=
  ⟨"\\bBrno\\b", fun s => searchWord "Brno" s,
   [("place", "Brno"), ("region", "Brno"), ("country", "Česko")]⟩

/-- Entry `(r'\bOstrava\b', {'place': 'Ostrava', 'region': 'Ostrava', 'country': 'Česko'})`. -/
def optOstrava : Optimization :=
  ⟨"\\bOstrava\\b", fun s => searchWord "Ostrava" s,
   [("place", "Ostrava"), ("region", "Ostrava"), ("country", "Česko")]⟩

/-- Embedding of `OPTIMIZATIONS` (`locations.py`, lines 18-25). -/
def OPTIMIZATIONS : List Optimization := [optPraha, optPrague, optBrno, optOstrava]

/-- Embedding of `REGIONS_MAPPING` (`locations.py`, lines 27-48). -/
def REGIONS_MAPPING : List (String × String) :=
  [("Deutschland", "Německo"),
   ("Polska", "Polsko"),
   ("Österreich", "Rakousko"),
   ("Hlavní město Praha", "Praha"),
   ("Středočeský kraj", "Praha"),
   ("Jihočeský kraj", "České Budějovice"),
   ("Plzeňský kraj", "Plzeň"),
   ("Karlovarský kraj", "Karlovy Vary"),
   ("Ústecký kraj", "Ústí nad Labem"),
   ("Liberecký kraj", "Liberec"),
   ("Královéhradecký kraj", "Hradec Králové"),
   ("Pardubický kraj", "Pardubice"),
   ("Olomoucký kraj", "Olomouc"),
   ("Moravskoslezský kraj", "Ostrava"),
   ("Jihomoravský kraj", "Brno"),
   ("Zlínský kraj", "Zlín"),
   ("Kraj Vysočina", "Jihlava")]

/-- Embedding of `get_region` (`locations.py`, lines 142-147): pick the region
for Czech addresses and the country otherwise, then map through
`REGIONS_MAPPING`; a missing dict key (Python `KeyError`) becomes `none`. -/
def get_region (address : Address) : Option String :=
  match List.lookup "country" address with
  | none => none
  | some country =>
      if ['č', 'e', 's', 'k'].isPrefixOf (country.data.map foldChar) then
        match List.lookup "region" address with
        | none => none
        | some region => some ((List.lookup region REGIONS_MAPPING).getD region)
      else some ((List.lookup country REGIONS_MAPPING).getD country)

/-- Embedding of `parse_location` (`locations.py`, lines 76-89): geocode one
raw location; a raised exception or a falsy address yields nothing, a dict
missing the `place` key or failing inside `get_region` raises a `KeyError`
which is caught and likewise yields nothing. -/
def parse_location (geocode : Geocode) (location_raw : String) : Option (String × String) :=
  match geocode location_raw with
  | .error _ => none
  | .ok address =>
      if address.isEmpty then none
      else
        match List.lookup "place" address, get_region address with
        | some place, some region => some (place, region)
        | _, _ => none

/-- A job item as seen by the locations pipeline stage. -/
structure JobItem where
  title : Option String
  company_name : Option String
  locations_raw : List String
  locations : List (String × String)
deriving DecidableEq

namespace Locations

/-- Embedding of `process` (`locations.py`, lines 67-73): parse every raw
location, drop the failures, collapse the survivors into a set (modelled by
`List.dedup`) and store them as the item's `locations`. -/
def process (geocode : Geocode) (item : JobItem) : JobItem :=
  { item with
    locations := ((item.locations_raw.map (parse_location geocode)).reduceOption).dedup }

end Locations

/-- The first `OPTIMIZATIONS` entry matching the raw location, in list order,
as found by the wrapper's `for location_re, value in OPTIMIZATIONS` loop. -/
def fastPath (location_raw : String) : Option Address :=
  (OPTIMIZATIONS.find? (fun o => o.search location_raw)).map (fun o => o.value)

/-- Embedding of one call to the wrapper produced by `optimize_geocoding`
(`locations.py`, lines 92-99).  The `calls` counter counts invocations of the
wrapped `geocode` function.  Note the source evaluates
`lru_cache(geocode)(location_raw)` inside the wrapper body, constructing a
fresh, empty cache on every call, so every non-fast-path call is a cache miss
and reaches the wrapped function. -/
def wrapperCall (geocode : Geocode) (location_raw : String) (calls : Nat) :
    Except String Address × Nat :=
  match fastPath location_raw with
  | some value => (.ok value, calls)
  | none => (geocode location_raw, calls + 1)

/-- How many times a sequence of wrapper calls invokes the wrapped `geocode`. -/
def wrapperCallCount (geocode : Geocode) (locs : List String) : Nat :=
  locs.foldl (fun n loc => (wrapperCall geocode loc n).2) 0

/-- Modelled from the spec: "Caches per-process via memoization" — one call of
the memoized wrapper the spec describes, threading an explicit cache keyed by
the raw location string. -/
def memoWrapperCall (geocode : Geocode) (location_raw : String)
    (cache : List (String × Except String Address)) (calls : Nat) :
    Except String Address × List (String × Except String Address) × Nat :=
  match fastPath location_raw with
  | some value => (.ok value, cache, calls)
  | none =>
      match List.lookup location_raw cache with
      | some result => (result, cache, calls)
      | none => (geocode location_raw, (location_raw, geocode location_raw) :: cache, calls + 1)

/-- How many times a sequence of memoized wrapper calls invokes the wrapped
`geocode`. -/
def memoWrapperCallCount (geocode : Geocode) (locs : List String) : Nat :=
  (locs.foldl (fun st loc =>
    let r := memoWrapperCall geocode loc st.1 st.2
    (r.2.1, r.2.2)) ([], 0)).2

/-! ## Concrete inputs used to exercise the theorems -/

/-- A geocode function used as concrete input: resolves `Brno` and `Praha`,
raises on anything else. -/
def exGeocode : Geocode := fun loc =>
  if loc = "Brno" then
    .ok [("place", "Brno"), ("region", "Jihomoravský kraj"), ("country", "Česko")]
  else if loc = "Praha" then
    .ok [("place", "Praha"), ("region", "Hlavní město Praha"), ("country", "Česko")]
  else .error "GeocodeError"

/-- A job item used as concrete input: the raw locations repeat `Brno`. -/
def exItem : JobItem :=
  { title := some "Frontend dev", company_name := none,
    locations_raw := ["Brno", "Praha", "Brno"], locations := [] }

/-- A scraped job item used as concrete input for the blocklist. -/
def exBlockItem : ScrapedItem :=
  fun f => if f = "title" then some "Elektro montér" else none

/-- The scheduled-message sequence of the repository's onboarding unit tests. -/
def testScheduled : ScheduledMessages Unit :=
  [('👋', fun _ => "First message".data),
   ('🌯', fun _ => "Second message".data),
   ('💤', fun _ => "Third message".data),
   ('🆗', fun _ => "Fourth message".data),
   ('🟡', fun _ => "Fifth message".data),
   ('🟥', fun _ => "Sixth message".data),
   ('🤡', fun _ => "Seventh message".data)]

/-- The `TODAY` of the onboarding unit tests, as a day number. -/
def testToday : Nat := 100

/-- A bot message, as built by `create_bot_message` in the onboarding unit
tests: read messages carry `{'✅': 2}`, unread ones `{'✅': 1}`. -/
def botMsg (id : Nat) (content : String) (day : Nat) (unread : Bool) :
    ClubMessage :=
  { id := id, authorId := JUNIORGURU_BOT, content := content.data, createdDay := day,
    checkReactions := if unread then 1 else 2 }

/-- A plain member message, as built by `create_message` in the onboarding
unit tests. -/
def userMsg (id author : Nat) (content : String) : ClubMessage :=
  { id := id, authorId := author, content := content.data, createdDay := 1,
    checkReactions := 0 }

/-! ## Validation of the spec-modelled onboarding against the repository's
unit tests (`src/tests/test_sync_onboarding.py`) -/

/-- `test_prepare_messages_empty_history`. -/
theorem model_test_empty_history :
    prepare_messages [] testScheduled testToday () = [(none, "👋 First message".data)] := by
  decide

/-- `test_prepare_messages_history_with_no_bot_messages`. -/
theorem model_test_no_bot_messages :
    prepare_messages [userMsg 1 123 "Non-relevant message",
      userMsg 2 345 "Another non-relevant message"] testScheduled testToday () =
      [(none, "👋 First message".data)] := by
  decide

/-- `test_prepare_messages_history_with_non_relevant_bot_messages`. -/
theorem model_test_non_relevant_bot_messages :
    prepare_messages [botMsg 1 "Non-relevant message" 1 true,
      botMsg 2 "Another non-relevant message" 1 false] testScheduled testToday () =
      [(none, "👋 First message".data)] := by
  decide

/-- `test_prepare_messages_history_with_the_first_message`. -/
theorem model_test_first_message :
    prepare_messages [botMsg 1 "👋 First message" 1 false] testScheduled testToday () =
      [(none, "🌯 Second message".data)] := by
  decide

/-- `test_prepare_messages_history_unread`. -/
theorem model_test_unread :
    prepare_messages [botMsg 1 "👋 First message" 1 true] testScheduled testToday () = [] := by
  decide

/-- `test_prepare_messages_history_unread_last_message`. -/
theorem model_test_unread_last :
    prepare_messages [botMsg 1 "👋 First message" 98 false,
      botMsg 2 "🌯 Second message" 99 true] testScheduled testToday () = [] := by
  decide

/-- `test_prepare_messages_history_unread_past_but_not_last_message`. -/
theorem model_test_unread_past_not_last :
    prepare_messages [botMsg 1 "👋 First message" 98 true,
      botMsg 2 "🌯 Second message" 99 false] testScheduled testToday () =
      [(none, "💤 Third message".data)] := by
  decide

/-- `test_prepare_messages_history_with_missing_messages`. -/
theorem model_test_missing_messages :
    prepare_messages [botMsg 1 "👋 First message" 1 false,
      botMsg 2 "🟥 Sixth message" 1 false] testScheduled testToday () =
      [(none, "🌯 Second message".data)] := by
  decide

/-- `test_prepare_messages_history_with_edits`. -/
theorem model_test_with_edits :
    prepare_messages [botMsg 1 "👋 Outdated message" 1 false,
      botMsg 2 "🌯 Second message" 1 false,
      botMsg 3 "💤 Third message" 1 false,
      botMsg 4 "🆗 Outdated message" 1 false] testScheduled testToday () =
      [(some 1, "👋 First message".data), (some 4, "🆗 Fourth message".data),
       (none, "🟡 Fifth message".data)] := by
  decide

/-- `test_prepare_messages_post_for_the_first_time_that_day`. -/
theorem model_test_first_time_that_day :
    prepare_messages [botMsg 1 "👋 First message" 97 false,
      botMsg 2 "🌯 Second message" 98 false,
      botMsg 3 "💤 Third message" 99 false] testScheduled testToday () =
      [(none, "🆗 Fourth message".data)] := by
  decide

/-- `test_prepare_messages_dont_post_twice_the_same_day`. -/
theorem model_test_dont_post_twice :
    prepare_messages [botMsg 1 "👋 First message" 98 false,
      botMsg 2 "🌯 Second message" 99 false,
      botMsg 3 "💤 Third message" 100 false] testScheduled testToday () = [] := by
  decide

/-- `test_prepare_messages_edit_messages_regardless_of_dates`. -/
theorem model_test_edits_regardless_of_dates :
    prepare_messages [botMsg 1 "👋 Outdated message" 97 false,
      botMsg 2 "🌯 Second message" 98 false,
      botMsg 3 "💤 Third message" 99 false,
      botMsg 4 "🆗 Outdated message" 100 false] testScheduled testToday () =
      [(some 1, "👋 First message".data), (some 4, "🆗 Fourth message".data)] := by
  decide

/-! ## C1: `evaluate_changes` -/

/-- C1: `evaluate_changes` returns exactly the single `add` change when the
member is targeted but lacks the role, exactly the single `remove` change when
the member has the role but is not targeted, and nothing otherwise. -/
theorem evaluate_changes_spec (mid rid : Nat) (init tgt : List Nat) :
    (mid ∈ tgt → rid ∉ init → evaluate_changes mid init tgt rid = [(mid, "add", rid)]) ∧
    (mid ∉ tgt → rid ∈ init → evaluate_changes mid init tgt rid = [(mid, "remove", rid)]) ∧
    ((mid ∈ tgt ↔ rid ∈ init) → evaluate_changes mid init tgt rid = []) := by
  unfold evaluate_changes
  refine ⟨fun h1 h2 => ?_, fun h1 h2 => ?_, fun h => ?_⟩
  · rw [if_pos ⟨h1, h2⟩]
  · rw [if_neg (by tauto), if_pos ⟨h1, h2⟩]
  · rw [if_neg (by tauto), if_neg (by tauto)]

/-- Witness for C1 at a concrete member, role and role sets. -/
theorem evaluate_changes_spec_witness :
    evaluate_changes 1 [] [1] 5 = [(1, "add", 5)] :=
  (evaluate_changes_spec 1 5 [] [1]).1 (by decide) (by decide)

/-! ## C6: blocklist `process` -/

/-- With no matching rule, the scan passes the item through unchanged. -/
theorem processRules_ok_of_no_match (rules : List BlockRule) (item : ScrapedItem)
    (h : ∀ r ∈ rules, r.search (fieldValue item r.field) = false) :
    Blocklist.processRules rules item = .ok item := by
  induction rules with
  | nil => rfl
  | cons r rest ih =>
      have hr : r.search (fieldValue item r.field) = false := h r (by simp)
      simp only [Blocklist.processRules, hr, Bool.false_eq_true, if_false]
      exact ih (fun r' hr' => h r' (by simp [hr']))

/-- The first matching rule of the scan determines the outcome. -/
theorem processRules_error_of_first_match (l₁ : List BlockRule) (r : BlockRule)
    (l₂ : List BlockRule) (item : ScrapedItem)
    (hm : r.search (fieldValue item r.field) = true)
    (hb : ∀ r' ∈ l₁, r'.search (fieldValue item r'.field) = false) :
    Blocklist.processRules (l₁ ++ r :: l₂) item =
      .error (dropItemMessage r.field (fieldValue item r.field) r.pattern) := by
  induction l₁ with
  | nil => simp only [List.nil_append, Blocklist.processRules, hm, if_true]
  | cons r' rest ih =>
      have hr' : r'.search (fieldValue item r'.field) = false := hb r' (by simp)
      simp only [List.cons_append, Blocklist.processRules, hr', Bool.false_eq_true, if_false]
      exact ih (fun x hx => hb x (by simp [hx]))

/-- The scan errors exactly when some rule matches. -/
theorem processRules_error_iff (rules : List BlockRule) (item : ScrapedItem) :
    (∃ e, Blocklist.processRules rules item = .error e) ↔
      ∃ r ∈ rules, r.search (fieldValue item r.field) = true := by
  induction rules with
  | nil =>
      constructor
      · rintro ⟨e, he⟩
        cases he
      · rintro ⟨r, hr, -⟩
        cases hr
  | cons r rest ih =>
      by_cases hr : r.search (fieldValue item r.field) = true
      · constructor
        · intro _
          exact ⟨r, by simp, hr⟩
        · intro _
          refine ⟨dropItemMessage r.field (fieldValue item r.field) r.pattern, ?_⟩
          simp only [Blocklist.processRules, hr, if_true]
      · simp only [Blocklist.processRules, hr, Bool.false_eq_true, if_false]
        rw [ih]
        constructor
        · rintro ⟨x, hx, hsx⟩
          exact ⟨x, by simp [hx], hsx⟩
        · rintro ⟨x, hx, hsx⟩
          rcases List.mem_cons.mp hx with h | h
          · exact absurd (h ▸ hsx) hr
          · exact ⟨x, h, hsx⟩

/-- C6: the blocklist `process` raises `DropItem` if and only if some rule of
`BLOCKLIST` matches the item's value for its field (a missing or falsy value
reading as the empty string); the triggering rule is the first matching one in
list order and the diagnostic message names its field, the value and the
pattern; with no match the item passes through unchanged. -/
theorem blocklist_process_spec (item : ScrapedItem) :
    ((∃ e, Blocklist.process item = .error e) ↔
      ∃ r ∈ BLOCKLIST, r.search (fieldValue item r.field) = true) ∧
    (∀ l₁ r l₂, BLOCKLIST = l₁ ++ r :: l₂ →
      r.search (fieldValue item r.field) = true →
      (∀ r' ∈ l₁, r'.search (fieldValue item r'.field) = false) →
      Blocklist.process item =
        .error (dropItemMessage r.field (fieldValue item r.field) r.pattern)) ∧
    ((∀ r ∈ BLOCKLIST, r.search (fieldValue item r.field) = false) →
      Blocklist.process item = .ok item) := by
  refine ⟨processRules_error_iff BLOCKLIST item, fun l₁ r l₂ hsplit hm hb => ?_,
    fun h => processRules_ok_of_no_match BLOCKLIST item h⟩
  show Blocklist.processRules BLOCKLIST item = _
  rw [hsplit]
  exact processRules_error_of_first_match l₁ r l₂ item hm hb

/-- Witness for C6: a title mentioning `elektro` is dropped by the second rule
(the first one does not match), with the diagnostic naming field, value and
pattern. -/
theorem blocklist_process_spec_witness :
    Blocklist.process exBlockItem =
      .error (dropItemMessage "title" "Elektro montér" "elektro") :=
  (blocklist_process_spec exBlockItem).2.1 [blockRulePlcCnc] blockRuleElektro
    [blockRuleKonstrukter, blockRuleCae, blockRuleSerizovac] rfl (by decide) (by decide)

/-! ## C9: `OPTIMIZATIONS` fast path -/

/-- `find?` returns the first element satisfying the predicate. -/
theorem find?_first_of_split {α : Type} (p : α → Bool) (l₁ : List α) (x : α) (l₂ : List α)
    (hx : p x = true) (hb : ∀ y ∈ l₁, p y = false) :
    (l₁ ++ x :: l₂).find? p = some x := by
  induction l₁ with
  | nil => simp [List.find?_cons, hx]
  | cons y ys ih =>
      have hy : p y = false := hb y (by simp)
      simp only [List.cons_append, List.find?_cons, hy]
      exact ih (fun z hz => hb z (by simp [hz]))

/-- C9: a raw location matched by an `OPTIMIZATIONS` rule — the first matching
one in list order — makes the wrapper return that rule's hardcoded address
without ever invoking the wrapped geocode function (the invocation counter is
unchanged). -/
theorem optimizations_fast_path (geocode : Geocode) (loc : String) (calls : Nat)
    (l₁ : List Optimization) (o : Optimization) (l₂ : List Optimization)
    (hsplit : OPTIMIZATIONS = l₁ ++ o :: l₂)
    (hmatch : o.search loc = true)
    (hbefore : ∀ o' ∈ l₁, o'.search loc = false) :
    wrapperCall geocode loc calls = (.ok o.value, calls) := by
  have hfind : OPTIMIZATIONS.find? (fun o' => o'.search loc) = some o := by
    rw [hsplit]
    exact find?_first_of_split _ l₁ o l₂ hmatch hbefore
  unfold wrapperCall fastPath
  rw [hfind]
  rfl

/-- Witness for C9: `"Brno"` is matched by the third rule (and by neither of
the Praha/Prague rules before it), so the wrapper answers from the table with
the counter untouched. -/
theorem optimizations_fast_path_witness :
    wrapperCall exGeocode "Brno" 7 = (.ok optBrno.value, 7) :=
  optimizations_fast_path exGeocode "Brno" 7 [optPraha, optPrague] optBrno [optOstrava]
    rfl (by decide) (by decide)

/-! ## C8: `optimize_geocoding` constructs a fresh `lru_cache` per call -/

/-- C8 (code bug): the wrapper produced by `optimize_geocoding` evaluates
`lru_cache(geocode)(location_raw)` inside its body, so the cache is created
empty on every call and the wrapped geocode function runs again on a repeated
non-fast-path location — two wrapper calls with the same raw location invoke
it twice, where the memoized wrapper described by the spec invokes it once. -/
theorem optimize_geocoding_not_memoized :
    (∀ geocode : Geocode, wrapperCallCount geocode ["Pardubice", "Pardubice"] = 2) ∧
    (∀ geocode : Geocode, memoWrapperCallCount geocode ["Pardubice", "Pardubice"] = 1) := by
  constructor <;> intro geocode <;> rfl

/-! ## C10: deduplication of produced locations -/

/-- C10: the produced `locations` never contain two entries with the same
`(name, region)` pair; on the concrete repeated-raw-locations input every raw
location geocodes successfully yet fewer locations than raw locations come
out, and their order is not the input order. -/
theorem locations_deduplicated :
    (∀ (geocode : Geocode) (item : JobItem),
      ((Locations.process geocode item).locations).Nodup) ∧
    (Locations.process exGeocode exItem).locations.length <
      exItem.locations_raw.length ∧
    (∀ loc ∈ exItem.locations_raw, (parse_location exGeocode loc).isSome = true) ∧
    (Locations.process exGeocode exItem).locations.head? ≠
      ((exItem.locations_raw.map (parse_location exGeocode)).reduceOption).head? := by
  refine ⟨fun geocode item => List.nodup_dedup _, by decide, by decide, by decide⟩

/-- Witness for C10 at the repeated raw location `"Brno"`. -/
theorem locations_deduplicated_witness :
    (parse_location exGeocode "Brno").isSome = true :=
  locations_deduplicated.2.2.1 "Brno" (by decide)

/-! ## C7: per-location failure isolation -/

/-- C7: the locations stage never drops the whole item — its non-`locations`
fields survive untouched; a raw location whose geocoding raises, or whose
address lacks a required key, contributes nothing, while every successfully
parsed raw location still contributes its `(name, region)` entry, and entries
arise only from such successes. -/
theorem locations_error_isolation (geocode : Geocode) (item : JobItem) :
    ((Locations.process geocode item).title = item.title ∧
     (Locations.process geocode item).company_name = item.company_name ∧
     (Locations.process geocode item).locations_raw = item.locations_raw) ∧
    (∀ loc e, geocode loc = .error e → parse_location geocode loc = none) ∧
    (∀ loc address, geocode loc = .ok address →
      List.lookup "place" address = none ∨ get_region address = none →
      parse_location geocode loc = none) ∧
    (∀ loc ∈ item.locations_raw, ∀ p, parse_location geocode loc = some p →
      p ∈ (Locations.process geocode item).locations) ∧
    (∀ p ∈ (Locations.process geocode item).locations,
      ∃ loc ∈ item.locations_raw, parse_location geocode loc = some p) := by
  refine ⟨⟨rfl, rfl, rfl⟩, fun loc e he => ?_, fun loc address hok hmiss => ?_,
    fun loc hloc p hp => ?_, fun p hp => ?_⟩
  · unfold parse_location
    rw [he]
  · unfold parse_location
    rw [hok]
    rcases hmiss with h | h <;>
      · by_cases hemp : address.isEmpty
        · simp [hemp]
        · simp only [hemp, if_false]
          rw [h]
          rcases hx : List.lookup "place" address <;> rcases hy : get_region address <;>
            simp_all
  · show p ∈ List.dedup _
    rw [List.mem_dedup, List.reduceOption_mem_iff]
    exact List.mem_map.mpr ⟨loc, hloc, hp⟩
  · rw [show (Locations.process geocode item).locations = List.dedup _ from rfl,
      List.mem_dedup, List.reduceOption_mem_iff] at hp
    rcases List.mem_map.mp hp with ⟨loc, hloc, hparse⟩
    exact ⟨loc, hloc, hparse⟩

/-- Witness for C7: the successfully geocoded `"Praha"` contributes its entry
on the concrete input. -/
theorem locations_error_isolation_witness :
    ("Praha", "Praha") ∈ (Locations.process exGeocode exItem).locations :=
  (locations_error_isolation exGeocode exItem).2.2.2.1 "Praha" (by decide)
    ("Praha", "Praha") (by decide)

/-! ## C5: `calc_stats` -/

/-- Stable insertion permutes consing. -/
theorem insertByCountDesc_perm (x : Nat × Nat) (l : List (Nat × Nat)) :
    insertByCountDesc x l ~ x :: l := by
  induction l with
  | nil => rfl
  | cons y ys ih =>
      unfold insertByCountDesc
      by_cases hc : y.2 ≤ x.2
      · rw [if_pos hc]
      · rw [if_neg hc]
        exact (ih.cons y).trans (List.Perm.swap x y ys)

/-- The stable sort is a permutation of its input. -/
theorem sortByCountDesc_perm (l : List (Nat × Nat)) : sortByCountDesc l ~ l := by
  induction l with
  | nil => rfl
  | cons a t ih => exact (insertByCountDesc_perm a (sortByCountDesc t)).trans (ih.cons a)

/-- Stable insertion preserves descending sortedness by count. -/
theorem insertByCountDesc_sorted (x : Nat × Nat) {l : List (Nat × Nat)}
    (h : l.Pairwise (fun a b => b.2 ≤ a.2)) :
    (insertByCountDesc x l).Pairwise (fun a b => b.2 ≤ a.2) := by
  induction l with
  | nil => simp [insertByCountDesc]
  | cons y ys ih =>
      rw [List.pairwise_cons] at h
      unfold insertByCountDesc
      by_cases hc : y.2 ≤ x.2
      · rw [if_pos hc]
        refine List.Pairwise.cons (fun b hb => ?_) (List.Pairwise.cons h.1 h.2)
        rcases List.mem_cons.mp hb with rfl | hb'
        · exact hc
        · exact le_trans (h.1 b hb') hc
      · rw [if_neg hc]
        refine List.Pairwise.cons (fun b hb => ?_) (ih h.2)
        rcases List.mem_cons.mp ((insertByCountDesc_perm x ys).mem_iff.mp hb) with rfl | hb'
        · exact le_of_lt (lt_of_not_le hc)
        · exact h.1 b hb'

/-- The stable sort is sorted by count descending. -/
theorem sortByCountDesc_sorted (l : List (Nat × Nat)) :
    (sortByCountDesc l).Pairwise (fun a b => b.2 ≤ a.2) := by
  induction l with
  | nil => exact List.Pairwise.nil
  | cons a t ih => exact insertByCountDesc_sorted a ih

/-- Inserting an element of count `c` puts it in front of all existing count-`c`
elements: the count-`c` fibre gains the new element at its head. -/
theorem filter_insertByCountDesc_of_eq (x : Nat × Nat) (c : Nat) (l : List (Nat × Nat))
    (hx : x.2 = c) :
    (insertByCountDesc x l).filter (fun p => p.2 == c) =
      x :: l.filter (fun p => p.2 == c) := by
  induction l with
  | nil => simp [insertByCountDesc, List.filter_cons, hx]
  | cons y ys ih =>
      unfold insertByCountDesc
      by_cases hc : y.2 ≤ x.2
      · rw [if_pos hc]
        simp [List.filter_cons, hx]
      · rw [if_neg hc]
        have hy : (y.2 == c) = false := by
          simp only [beq_eq_false_iff_ne, ne_eq]
          omega
        simp [List.filter_cons, hy, ih]

/-- Inserting an element of a different count leaves the count-`c` fibre alone. -/
theorem filter_insertByCountDesc_of_ne (x : Nat × Nat) (c : Nat) (l : List (Nat × Nat))
    (hx : x.2 ≠ c) :
    (insertByCountDesc x l).filter (fun p => p.2 == c) =
      l.filter (fun p => p.2 == c) := by
  have hxb : (x.2 == c) = false := by simpa using hx
  induction l with
  | nil => simp [insertByCountDesc, List.filter_cons, hxb]
  | cons y ys ih =>
      unfold insertByCountDesc
      by_cases hc : y.2 ≤ x.2
      · rw [if_pos hc]
        simp [List.filter_cons, hxb]
      · rw [if_neg hc]
        simp [List.filter_cons, ih]

/-- Stability of the sort: every count fibre keeps its original order. -/
theorem filter_sortByCountDesc (l : List (Nat × Nat)) (c : Nat) :
    (sortByCountDesc l).filter (fun p => p.2 == c) = l.filter (fun p => p.2 == c) := by
  induction l with
  | nil => rfl
  | cons a t ih =>
      show (insertByCountDesc a (sortByCountDesc t)).filter _ = _
      by_cases ha : a.2 = c
      · rw [filter_insertByCountDesc_of_eq a c _ ha, ih]
        simp [List.filter_cons, ha]
      · rw [filter_insertByCountDesc_of_ne a c _ ha, ih]
        have hab : (a.2 == c) = false := by simpa using ha
        simp [List.filter_cons, hab]

/-- In a duplicate-free list, whenever `x` occurs before `y` and `y` made the
`take`, so did `x`. -/
theorem mem_take_of_pair_sublist {α : Type} {x y : α} :
    ∀ (l : List α) (n : Nat), [x, y] <+ l → y ∈ l.take n → l.Nodup → x ∈ l.take n := by
  intro l
  induction l with
  | nil =>
      intro n hs hy _
      simp at hy
  | cons a t ih =>
      intro n hs hy hnd
      rcases n with _ | m
      · simp at hy
      · rw [List.take_succ_cons] at hy ⊢
        rw [List.nodup_cons] at hnd
        rcases List.sublist_cons_iff.mp hs with h | ⟨r, hr, h⟩
        · rcases List.mem_cons.mp hy with rfl | hy'
          · exact absurd (h.subset (by simp)) hnd.1
          · exact List.mem_cons_of_mem a (ih m h hy' hnd.2)
        · injection hr with h1 h2
          subst h1
          exact List.mem_cons_self x _

/-- C5: `calc_stats` keeps at most `top_members_limit` entries; every kept
count dominates the count of every member left out; and among equal counts the
member earlier in the iteration order is kept in preference (the sort is
stable). -/
theorem calc_stats_spec (members : List Nat) (f : Nat → Nat) (limit : Nat)
    (hnd : members.Nodup) :
    (calc_stats members f limit).length ≤ limit ∧
    (∀ p ∈ calc_stats members f limit, ∀ j ∈ members,
      (j, f j) ∉ calc_stats members f limit → f j ≤ p.2) ∧
    (∀ i j : Nat, [i, j] <+ members → f i = f j →
      (j, f j) ∈ calc_stats members f limit → (i, f i) ∈ calc_stats members f limit) := by
  have hperm : sortByCountDesc (members.map (fun i => (i, f i))) ~
      members.map (fun i => (i, f i)) := sortByCountDesc_perm _
  have hsorted := sortByCountDesc_sorted (members.map (fun i => (i, f i)))
  have hxnd : (members.map (fun i => (i, f i))).Nodup :=
    hnd.map (fun a b h => congrArg Prod.fst h)
  have hsnd : (sortByCountDesc (members.map (fun i => (i, f i)))).Nodup :=
    hperm.nodup_iff.mpr hxnd
  refine ⟨List.length_take_le _ _, fun p hp j hj hnot => ?_, fun i j hsub hfij hj => ?_⟩
  · -- dominance of the kept counts
    have hjs : (j, f j) ∈ sortByCountDesc (members.map (fun i => (i, f i))) :=
      hperm.mem_iff.mpr (List.mem_map.mpr ⟨j, hj, rfl⟩)
    rw [← List.take_append_drop limit (sortByCountDesc (members.map (fun i => (i, f i)))),
      List.mem_append] at hjs
    rcases hjs with h | h
    · exact absurd h hnot
    · have hpw : List.Pairwise (fun a b => b.2 ≤ a.2)
          ((sortByCountDesc (members.map (fun i => (i, f i)))).take limit ++
            (sortByCountDesc (members.map (fun i => (i, f i)))).drop limit) := by
        rw [List.take_append_drop]
        exact hsorted
      exact (List.pairwise_append.mp hpw).2.2 p hp (j, f j) h
  · -- stability
    have hpair : [(i, f i), (j, f j)] <+ members.map (fun i => (i, f i)) := by
      have := hsub.map (fun i => (i, f i))
      simpa using this
    have hpairf : [(i, f i), (j, f j)] <+
        (members.map (fun i => (i, f i))).filter (fun p => p.2 == f i) := by
      have := hpair.filter (fun p => p.2 == f i)
      simpa [List.filter_cons, hfij] using this
    have hpairs : [(i, f i), (j, f j)] <+
        sortByCountDesc (members.map (fun i => (i, f i))) := by
      have hstep : [(i, f i), (j, f j)] <+
          (sortByCountDesc (members.map (fun i => (i, f i)))).filter
            (fun p => p.2 == f i) := by
        rw [filter_sortByCountDesc]
        exact hpairf
      exact hstep.trans (List.filter_sublist _)
    exact mem_take_of_pair_sublist _ limit hpairs hj hsnd

/-- Witness for C5: with all counts equal, the two earliest of three members
are the ones kept. -/
theorem calc_stats_spec_witness :
    (1, 5) ∈ calc_stats [1, 2, 3] (fun _ => 5) 2 :=
  (calc_stats_spec [1, 2, 3] (fun _ => 5) 2 (by decide)).2.2 1 2
    (List.Sublist.cons₂ 1 (List.Sublist.cons₂ 2 (List.Sublist.cons 3 List.Sublist.slnil)))
    rfl (by decide)

/-! ## C2: reconciliation invariant -/

/-- Characterization of the single change `evaluate_changes` can emit. -/
theorem mem_evaluate_changes {c : Change} {mid rid : Nat} {init tgt : List Nat} :
    c ∈ evaluate_changes mid init tgt rid ↔
      (c = (mid, "add", rid) ∧ mid ∈ tgt ∧ rid ∉ init) ∨
      (c = (mid, "remove", rid) ∧ mid ∉ tgt ∧ rid ∈ init) := by
  unfold evaluate_changes
  by_cases h1 : mid ∈ tgt ∧ rid ∉ init
  · rw [if_pos h1]
    simp only [List.mem_singleton]
    tauto
  · rw [if_neg h1]
    by_cases h2 : mid ∉ tgt ∧ rid ∈ init
    · rw [if_pos h2]
      simp only [List.mem_singleton]
      tauto
    · rw [if_neg h2]
      simp only [List.not_mem_nil, false_iff]
      tauto

/-- Characterization of the changes accumulated for a member. -/
theorem mem_memberChanges {c : Change} {mid : Nat} {init : List Nat}
    {managed : List ManagedRole} :
    c ∈ memberChanges mid init managed ↔
      ∃ r ∈ managed,
        (c = (mid, "add", r.1) ∧ mid ∈ r.2 ∧ r.1 ∉ init) ∨
        (c = (mid, "remove", r.1) ∧ mid ∉ r.2 ∧ r.1 ∈ init) := by
  unfold memberChanges
  rw [List.mem_flatten]
  constructor
  · rintro ⟨l, hl, hc⟩
    rcases List.mem_map.mp hl with ⟨r, hr, rfl⟩
    exact ⟨r, hr, mem_evaluate_changes.mp hc⟩
  · rintro ⟨r, hr, h⟩
    exact ⟨evaluate_changes mid init r.2 r.1, List.mem_map.mpr ⟨r, hr, rfl⟩,
      mem_evaluate_changes.mpr h⟩

/-- Characterization of the `add` batch of a member's changes. -/
theorem mem_addedRoles {a mid : Nat} {init : List Nat} {managed : List ManagedRole} :
    a ∈ addedRoles mid (memberChanges mid init managed) ↔
      ∃ r ∈ managed, r.1 = a ∧ mid ∈ r.2 ∧ a ∉ init := by
  unfold addedRoles
  rw [List.mem_filterMap]
  constructor
  · rintro ⟨c, hc, hsome⟩
    have hp : (c.1 = mid ∧ c.2.1 = "add") ∧ c.2.2 = a := by
      by_cases h : c.1 = mid ∧ c.2.1 = "add"
      · rw [if_pos h] at hsome
        injection hsome with h2
        exact ⟨h, h2⟩
      · rw [if_neg h] at hsome
        cases hsome
    rcases mem_memberChanges.mp hc with ⟨r, hr, hcase | hcase⟩
    · refine ⟨r, hr, ?_, hcase.2.1, ?_⟩
      · rw [← hp.2, hcase.1]
      · rw [← hp.2, hcase.1]
        exact hcase.2.2
    · rw [hcase.1] at hp
      have hne : ("remove" : String) ≠ "add" := by decide
      exact absurd hp.1.2 hne
  · rintro ⟨r, hr, rfl, hmem, hnot⟩
    refine ⟨(mid, "add", r.1), mem_memberChanges.mpr ⟨r, hr, Or.inl ⟨rfl, hmem, hnot⟩⟩, ?_⟩
    rw [if_pos ⟨rfl, rfl⟩]

/-- Characterization of the `remove` batch of a member's changes. -/
theorem mem_removedRoles {a mid : Nat} {init : List Nat} {managed : List ManagedRole} :
    a ∈ removedRoles mid (memberChanges mid init managed) ↔
      ∃ r ∈ managed, r.1 = a ∧ mid ∉ r.2 ∧ a ∈ init := by
  unfold removedRoles
  rw [List.mem_filterMap]
  constructor
  · rintro ⟨c, hc, hsome⟩
    have hp : (c.1 = mid ∧ c.2.1 = "remove") ∧ c.2.2 = a := by
      by_cases h : c.1 = mid ∧ c.2.1 = "remove"
      · rw [if_pos h] at hsome
        injection hsome with h2
        exact ⟨h, h2⟩
      · rw [if_neg h] at hsome
        cases hsome
    rcases mem_memberChanges.mp hc with ⟨r, hr, hcase | hcase⟩
    · rw [hcase.1] at hp
      have hne2 : ("add" : String) ≠ "remove" := by decide
      exact absurd hp.1.2 hne2
    · refine ⟨r, hr, ?_, hcase.2.1, ?_⟩
      · rw [← hp.2, hcase.1]
      · rw [← hp.2, hcase.1]
        exact hcase.2.2
  · rintro ⟨r, hr, rfl, hmem, hin⟩
    refine ⟨(mid, "remove", r.1), mem_memberChanges.mpr ⟨r, hr, Or.inr ⟨rfl, hmem, hin⟩⟩, ?_⟩
    rw [if_pos ⟨rfl, rfl⟩]

/-- Membership after applying a member's grouped changes. -/
theorem mem_applyMemberChanges {a mid : Nat} {init : List Nat} {changes : List Change} :
    a ∈ applyMemberChanges mid init changes ↔
      (a ∈ init ∨ a ∈ addedRoles mid changes) ∧ a ∉ removedRoles mid changes := by
  unfold applyMemberChanges
  rw [List.mem_filter, List.mem_append]
  simp

/-- C2: after applying a member's accumulated changes, the member holds a
managed role exactly when its rule targets them; roles outside the managed
family are untouched; and no emitted change re-adds a held role or removes an
absent one. -/
theorem role_reconciliation_invariant (mid : Nat) (init : List Nat)
    (managed : List ManagedRole) (hnd : (managed.map Prod.fst).Nodup) :
    (∀ r ∈ managed,
      (r.1 ∈ applyMemberChanges mid init (memberChanges mid init managed) ↔ mid ∈ r.2)) ∧
    (∀ rid, rid ∉ managed.map Prod.fst →
      (rid ∈ applyMemberChanges mid init (memberChanges mid init managed) ↔ rid ∈ init)) ∧
    (∀ c ∈ memberChanges mid init managed,
      (c.2.1 = "add" → c.2.2 ∉ init) ∧ (c.2.1 = "remove" → c.2.2 ∈ init)) := by
  have hinj := List.inj_on_of_nodup_map hnd
  refine ⟨fun r hr => ?_, fun rid hrid => ?_, fun c hc => ?_⟩
  · rw [mem_applyMemberChanges]
    by_cases hmem : mid ∈ r.2
    · have hnr : r.1 ∉ removedRoles mid (memberChanges mid init managed) := by
        rw [mem_removedRoles]
        rintro ⟨r', hr', h1, h2, h3⟩
        have heq : r' = r := hinj hr' hr h1
        rw [heq] at h2
        exact h2 hmem
      by_cases hin : r.1 ∈ init
      · simp [hin, hnr, hmem]
      · have : r.1 ∈ addedRoles mid (memberChanges mid init managed) :=
          mem_addedRoles.mpr ⟨r, hr, rfl, hmem, hin⟩
        simp [this, hnr, hmem]
    · have hna : r.1 ∉ addedRoles mid (memberChanges mid init managed) := by
        rw [mem_addedRoles]
        rintro ⟨r', hr', h1, h2, h3⟩
        have heq : r' = r := hinj hr' hr h1
        rw [heq] at h2
        exact hmem h2
      by_cases hin : r.1 ∈ init
      · have : r.1 ∈ removedRoles mid (memberChanges mid init managed) :=
          mem_removedRoles.mpr ⟨r, hr, rfl, hmem, hin⟩
        simp [this, hmem]
      · simp [hin, hna, hmem]
  · rw [mem_applyMemberChanges]
    have hna : rid ∉ addedRoles mid (memberChanges mid init managed) := by
      rw [mem_addedRoles]
      rintro ⟨r', hr', h1, -, -⟩
      exact hrid (List.mem_map.mpr ⟨r', hr', h1⟩)
    have hnr : rid ∉ removedRoles mid (memberChanges mid init managed) := by
      rw [mem_removedRoles]
      rintro ⟨r', hr', h1, -, -⟩
      exact hrid (List.mem_map.mpr ⟨r', hr', h1⟩)
    simp [hna, hnr]
  · rcases mem_memberChanges.mp hc with ⟨r, hr, hcase | hcase⟩ <;> rw [hcase.1]
    · exact ⟨fun _ => hcase.2.2, fun h => by simp at h⟩
    · exact ⟨fun h => by simp at h, fun _ => hcase.2.2⟩

/-- Witness for C2: one managed role the member should gain, one they should
lose, one unmanaged role kept. -/
theorem role_reconciliation_invariant_witness :
    (10 ∈ applyMemberChanges 1 [20, 99] (memberChanges 1 [20, 99] [(10, [1]), (20, [])]) ↔
      (1 : Nat) ∈ [1]) :=
  (role_reconciliation_invariant 1 [20, 99] [(10, [1]), (20, [])] (by decide)).1
    (10, [1]) (by simp)

/-! ## C3/C4: onboarding message replay -/

/-- A pure-edit operation list acts on a history as a pointwise map. -/
theorem applyOps_eq_map (today newId : Nat) (ops : List MessageOp) :
    ∀ history : List ClubMessage, (∀ op ∈ ops, op.1.isSome = true) →
      applyOps today newId history ops = history.map (editMsg ops) := by
  induction ops with
  | nil =>
      intro history _
      exact (List.map_id'' (fun m => rfl) history).symm
  | cons op rest ih =>
      intro history hall
      rcases op with ⟨mid?, c⟩
      rcases mid? with _ | mid
      · exact absurd (hall (none, c) (by simp)) (by simp)
      · show applyOps today newId (applyOp today newId history (some mid, c)) rest =
          history.map (editMsg ((some mid, c) :: rest))
        rw [ih (applyOp today newId history (some mid, c))
          (fun o ho => hall o (by simp [ho]))]
        show (history.map fun m => if m.id = mid then { m with content := c } else m).map
            (editMsg rest) = _
        rw [List.map_map]
        rfl

/-- One operation step never changes id, author, creation day or reactions. -/
theorem editStep_fields (m : ClubMessage) (op : MessageOp) :
    (editStep m op).id = m.id ∧ (editStep m op).authorId = m.authorId ∧
      (editStep m op).createdDay = m.createdDay ∧
      (editStep m op).checkReactions = m.checkReactions := by
  rcases op with ⟨mid?, c⟩
  rcases mid? with _ | mid
  · exact ⟨rfl, rfl, rfl, rfl⟩
  · show ((if m.id = mid then { m with content := c } else m).id = m.id) ∧ _
    by_cases h : m.id = mid <;> simp [editStep, h]

/-- Edits never change id, author, creation day or reactions. -/
theorem editMsg_fields (ops : List MessageOp) :
    ∀ m : ClubMessage, (editMsg ops m).id = m.id ∧
      (editMsg ops m).authorId = m.authorId ∧
      (editMsg ops m).createdDay = m.createdDay ∧
      (editMsg ops m).checkReactions = m.checkReactions := by
  induction ops with
  | nil => exact fun m => ⟨rfl, rfl, rfl, rfl⟩
  | cons op rest ih =>
      intro m
      have hstep := editStep_fields m op
      have htail := ih (editStep m op)
      show (editMsg rest (editStep m op)).id = m.id ∧ _
      exact ⟨htail.1.trans hstep.1, (htail.2.1).trans hstep.2.1,
        (htail.2.2.1).trans hstep.2.2.1, (htail.2.2.2).trans hstep.2.2.2⟩

/-- A message targeted by none of the operations is untouched. -/
theorem editMsg_of_not_target (ops : List MessageOp) :
    ∀ m : ClubMessage, (∀ op ∈ ops, op.1 ≠ some m.id) → editMsg ops m = m := by
  induction ops with
  | nil => exact fun m _ => rfl
  | cons op rest ih =>
      intro m hm
      have hstep : editStep m op = m := by
        rcases op with ⟨mid?, c⟩
        rcases mid? with _ | mid
        · rfl
        · have : mid ≠ m.id := fun h => hm (some mid, c) (by simp) (by rw [h])
          show (if m.id = mid then _ else m) = m
          rw [if_neg (fun h => this h.symm)]
      show editMsg rest (editStep m op) = m
      rw [hstep]
      exact ih m (fun o ho => hm o (by simp [ho]))

/-- A message whose id no operation targets comes out untouched. -/
theorem editMsg_eq_of_find_none (ops : List MessageOp) (m : ClubMessage)
    (h : ops.find? (fun op => op.1 == some m.id) = none) : editMsg ops m = m := by
  refine editMsg_of_not_target ops m (fun op hop heq => ?_)
  have := List.find?_eq_none.mp h op hop
  simp [heq] at this

/-- With pairwise-distinct edit targets, the first operation aimed at a
message's id decides its final content. -/
theorem editMsg_eq_of_find_some (ops : List MessageOp) :
    ∀ (m : ClubMessage) (op₀ : MessageOp), (ops.filterMap Prod.fst).Nodup →
      ops.find? (fun op => op.1 == some m.id) = some op₀ →
      editMsg ops m = { m with content := op₀.2 } := by
  induction ops with
  | nil =>
      intro m op₀ _ h
      cases h
  | cons op rest ih =>
      intro m op₀ hnd h
      by_cases hp : (op.1 == some m.id) = true
      · have hfind : List.find? (fun op => op.1 == some m.id) (op :: rest) = some op :=
          List.find?_cons_of_pos rest hp
        have hop : op = op₀ := by
          have := hfind.symm.trans h
          injection this
        subst hop
        have hid : op.1 = some m.id := by simpa using hp
        have hnotin : m.id ∉ rest.filterMap Prod.fst := by
          rcases op with ⟨mid?, c⟩
          simp only at hid
          subst hid
          simp only [List.filterMap_cons] at hnd
          exact (List.nodup_cons.mp hnd).1
        have hrest : ∀ op' ∈ rest, op'.1 ≠ some m.id := by
          intro op' hop' heq
          exact hnotin (List.mem_filterMap.mpr ⟨op', hop', heq⟩)
        show editMsg rest (editStep m op) = _
        have hstep : editStep m op = { m with content := op.2 } := by
          rcases op with ⟨mid?, c⟩
          simp only at hid
          subst hid
          show (if m.id = m.id then _ else m) = _
          rw [if_pos rfl]
        rw [hstep]
        exact editMsg_of_not_target rest _ (fun o ho => hrest o ho)
      · have hfind : List.find? (fun op => op.1 == some m.id) (op :: rest) =
            List.find? (fun op => op.1 == some m.id) rest :=
          List.find?_cons_of_neg rest hp
        have h' : rest.find? (fun op => op.1 == some m.id) = some op₀ :=
          hfind.symm.trans h
        have hstep : editStep m op = m := by
          rcases op with ⟨mid?, c⟩
          rcases mid? with _ | mid
          · rfl
          · have hmid : ¬mid = m.id := by simpa using hp
            show (if m.id = mid then _ else m) = m
            rw [if_neg (fun hh => hmid hh.symm)]
        show editMsg rest (editStep m op) = _
        rw [hstep]
        refine ih m op₀ ?_ h'
        rcases op with ⟨mid?, c⟩
        rcases mid? with _ | mid
        · simpa using hnd
        · simp only [List.filterMap_cons] at hnd
          exact (List.nodup_cons.mp hnd).2

/-- Shape of the operations `editsOf` emits. -/
theorem mem_editsOf {γ : Type} {sm : ScheduledMessages γ} {history : List ClubMessage}
    {ctx : γ} {op : MessageOp} (hop : op ∈ editsOf sm history ctx) :
    ∃ p ∈ sm, ∃ mt, lastMarked p.1 history = some mt ∧
      mt.content ≠ render p.1 (p.2 ctx) ∧ op = (some mt.id, render p.1 (p.2 ctx)) := by
  unfold editsOf at hop
  rcases List.mem_filterMap.mp hop with ⟨p, hp, hsome⟩
  rcases hlm : lastMarked p.1 history with _ | mt
  · simp only [hlm] at hsome
    cases hsome
  · simp only [hlm] at hsome
    by_cases hc : mt.content = render p.1 (p.2 ctx)
    · rw [if_pos hc] at hsome
      cases hsome
    · rw [if_neg hc] at hsome
      injection hsome with h
      exact ⟨p, hp, mt, hlm, hc, h.symm⟩

/-- The message `lastMarked` finds is a bot message of the history whose
content starts with the marker. -/
theorem lastMarked_spec {e : Char} {history : List ClubMessage} {mt : ClubMessage}
    (h : lastMarked e history = some mt) :
    mt ∈ history ∧ mt.authorId = JUNIORGURU_BOT ∧ mt.content.head? = some e := by
  unfold lastMarked at h
  have hmem := List.mem_of_getLast?_eq_some h
  have hfil := List.mem_filter.mp hmem
  have hb := hfil.2
  simp only [Bool.and_eq_true, beq_iff_eq] at hb
  exact ⟨hfil.1, hb.1, hb.2⟩

/-- Distinct markers and distinct message ids make the edit targets pairwise
distinct. -/
theorem editsOf_keys_nodup {γ : Type} (sm : ScheduledMessages γ)
    (history : List ClubMessage) (ctx : γ)
    (hids : (history.map ClubMessage.id).Nodup) :
    ∀ hmk : (sm.map Prod.fst).Nodup,
      ((editsOf sm history ctx).filterMap Prod.fst).Nodup := by
  induction sm with
  | nil =>
      intro _
      simp [editsOf]
  | cons p sm' ih =>
      intro hmk
      simp only [List.map_cons, List.nodup_cons] at hmk
      have hpnot : p.1 ∉ sm'.map Prod.fst := hmk.1
      show ((List.filterMap _ (p :: sm')).filterMap Prod.fst).Nodup
      rw [List.filterMap_cons]
      rcases hlm : lastMarked p.1 history with _ | mt
      · simp only [hlm]
        exact ih hmk.2
      · simp only [hlm]
        by_cases hc : mt.content = render p.1 (p.2 ctx)
        · rw [if_pos hc]
          exact ih hmk.2
        · rw [if_neg hc]
          rw [List.filterMap_cons]
          show (mt.id :: (editsOf sm' history ctx).filterMap Prod.fst).Nodup
          rw [List.nodup_cons]
          refine ⟨fun hmem => ?_, ih hmk.2⟩
          rcases List.mem_filterMap.mp hmem with ⟨op, hop, hkey⟩
          rcases mem_editsOf hop with ⟨q, hq, mt', hlm', hne', hopeq⟩
          rw [hopeq] at hkey
          have hid : mt'.id = mt.id := Option.some.inj hkey
          have heqm : mt' = mt :=
            List.inj_on_of_nodup_map hids (lastMarked_spec hlm').1 (lastMarked_spec hlm).1 hid
          have h1 := (lastMarked_spec hlm).2.2
          have h2 := (lastMarked_spec hlm').2.2
          rw [heqm, h1] at h2
          have hpq : p.1 = q.1 := Option.some.inj h2
          exact hpnot (hpq ▸ List.mem_map.mpr ⟨q, hq, rfl⟩)

/-- After applying the edits, every scheduled message present in the history
carries exactly the generator output. -/
theorem editMsg_editsOf_content {γ : Type} {sm : ScheduledMessages γ}
    {history : List ClubMessage} {ctx : γ}
    (hids : (history.map ClubMessage.id).Nodup)
    (hmk : (sm.map Prod.fst).Nodup)
    {p : Char × (γ → List Char)} (hp : p ∈ sm) {mt : ClubMessage}
    (hlm : lastMarked p.1 history = some mt) :
    (editMsg (editsOf sm history ctx) mt).content = render p.1 (p.2 ctx) := by
  have hinj := List.inj_on_of_nodup_map hids
  have hminj := List.inj_on_of_nodup_map hmk
  have hkeys := editsOf_keys_nodup sm history ctx hids hmk
  by_cases hc : mt.content = render p.1 (p.2 ctx)
  · have hnone : (editsOf sm history ctx).find? (fun op => op.1 == some mt.id) = none := by
      rw [List.find?_eq_none]
      intro op hop hbeq
      rcases mem_editsOf hop with ⟨q, hq, mt', hlm', hne', hopeq⟩
      have hkey : op.1 = some mt.id := by simpa using hbeq
      rw [hopeq] at hkey
      have hid : mt'.id = mt.id := Option.some.inj hkey
      have heqm : mt' = mt :=
        hinj (lastMarked_spec hlm').1 (lastMarked_spec hlm).1 hid
      have h2 := (lastMarked_spec hlm').2.2
      rw [heqm, (lastMarked_spec hlm).2.2] at h2
      have hq1 : q.1 = p.1 := (Option.some.inj h2).symm
      have hqp : q = p := hminj hq hp hq1
      rw [hqp, heqm] at hne'
      exact hne' hc
    rw [editMsg_eq_of_find_none _ _ hnone]
    exact hc
  · have hmem : ((some mt.id, render p.1 (p.2 ctx)) : MessageOp) ∈ editsOf sm history ctx := by
      unfold editsOf
      refine List.mem_filterMap.mpr ⟨p, hp, ?_⟩
      simp only [hlm]
      rw [if_neg hc]
    rcases hf : (editsOf sm history ctx).find? (fun op => op.1 == some mt.id) with _ | op₀
    · exfalso
      exact List.find?_eq_none.mp hf _ hmem (by simp)
    · have hpred := List.find?_some hf
      have hkey : op₀.1 = some mt.id := by simpa using hpred
      rcases mem_editsOf (List.mem_of_find?_eq_some hf) with ⟨q, hq, mt', hlm', hne', hopeq⟩
      rw [hopeq] at hkey
      have hid : mt'.id = mt.id := Option.some.inj hkey
      have heqm : mt' = mt :=
        hinj (lastMarked_spec hlm').1 (lastMarked_spec hlm).1 hid
      have h2 := (lastMarked_spec hlm').2.2
      rw [heqm, (lastMarked_spec hlm).2.2] at h2
      have hq1 : q.1 = p.1 := (Option.some.inj h2).symm
      have hqp : q = p := hminj hq hp hq1
      rw [editMsg_eq_of_find_some _ mt op₀ hkeys hf]
      show op₀.2 = render p.1 (p.2 ctx)
      rw [hopeq, ← hqp]

/-- The edits preserve the head marker of every message of the history. -/
theorem editMsg_editsOf_head {γ : Type} {sm : ScheduledMessages γ}
    {history : List ClubMessage} {ctx : γ}
    (hids : (history.map ClubMessage.id).Nodup)
    (hmk : (sm.map Prod.fst).Nodup)
    {m : ClubMessage} (hm : m ∈ history) :
    (editMsg (editsOf sm history ctx) m).content.head? = m.content.head? := by
  rcases hf : (editsOf sm history ctx).find? (fun op => op.1 == some m.id) with _ | op₀
  · rw [editMsg_eq_of_find_none _ _ hf]
  · have hkeys := editsOf_keys_nodup sm history ctx hids hmk
    rw [editMsg_eq_of_find_some _ m op₀ hkeys hf]
    have hpred := List.find?_some hf
    have hkey : op₀.1 = some m.id := by simpa using hpred
    rcases mem_editsOf (List.mem_of_find?_eq_some hf) with ⟨q, hq, mt', hlm', hne', hopeq⟩
    rw [hopeq] at hkey
    have hid : mt'.id = m.id := Option.some.inj hkey
    have heqm : mt' = m :=
      List.inj_on_of_nodup_map hids (lastMarked_spec hlm').1 hm hid
    have hold : m.content.head? = some q.1 := by
      rw [← heqm]
      exact (lastMarked_spec hlm').2.2
    rw [hold, hopeq]
    rfl

/-- Filtering commutes with a map that does not change the predicate. -/
theorem filter_map_comm (F : ClubMessage → ClubMessage) (q : ClubMessage → Bool)
    (history : List ClubMessage) (hq : ∀ m ∈ history, q (F m) = q m) :
    (history.map F).filter q = (history.filter q).map F := by
  rw [List.filter_map]
  congr 1
  exact List.filter_congr hq

/-- Applying the edits commutes with `lastMarked`. -/
theorem lastMarked_map_edits {γ : Type} {sm : ScheduledMessages γ}
    {history : List ClubMessage} {ctx : γ}
    (hids : (history.map ClubMessage.id).Nodup)
    (hmk : (sm.map Prod.fst).Nodup) (e : Char) :
    lastMarked e (history.map (editMsg (editsOf sm history ctx))) =
      (lastMarked e history).map (editMsg (editsOf sm history ctx)) := by
  have hcomm := filter_map_comm (editMsg (editsOf sm history ctx))
    (fun m => m.authorId == JUNIORGURU_BOT && m.content.head? == some e) history
    (fun m hm => by
      dsimp only
      rw [(editMsg_fields (editsOf sm history ctx) m).2.1,
        editMsg_editsOf_head hids hmk hm])
  unfold lastMarked
  rw [hcomm, List.getLast?_map]

/-- Applying the edits commutes with `lastScheduled`. -/
theorem lastScheduled_map_edits {γ : Type} {sm : ScheduledMessages γ}
    {history : List ClubMessage} {ctx : γ}
    (hids : (history.map ClubMessage.id).Nodup)
    (hmk : (sm.map Prod.fst).Nodup) :
    lastScheduled sm (history.map (editMsg (editsOf sm history ctx))) =
      (lastScheduled sm history).map (editMsg (editsOf sm history ctx)) := by
  have hcomm := filter_map_comm (editMsg (editsOf sm history ctx))
    (fun m => m.authorId == JUNIORGURU_BOT && sm.any (fun p => m.content.head? == some p.1))
    history
    (fun m hm => by
      dsimp only
      rw [(editMsg_fields (editsOf sm history ctx) m).2.1,
        editMsg_editsOf_head hids hmk hm])
  unfold lastScheduled
  rw [hcomm, List.getLast?_map]

/-- With every scheduled message present and matching its generator output,
no edits are emitted. -/
theorem editsOf_eq_nil {γ : Type} (sm : ScheduledMessages γ) (h' : List ClubMessage)
    (ctx : γ)
    (hgood : ∀ p ∈ sm, ∀ mt, lastMarked p.1 h' = some mt →
      mt.content = render p.1 (p.2 ctx)) :
    editsOf sm h' ctx = [] := by
  unfold editsOf
  rw [List.filterMap_eq_nil_iff]
  intro p hp
  rcases hlm : lastMarked p.1 h' with _ | mt
  · simp [hlm]
  · simp [hlm, hgood p hp mt hlm]

/-- A blocked last scheduled message (unread, or posted today) suppresses the
send operation. -/
theorem sendOf_eq_nil_of_blocked {γ : Type} (sm : ScheduledMessages γ)
    (h' : List ClubMessage) (today : Nat) (ctx : γ) (mlast : ClubMessage)
    (hls : lastScheduled sm h' = some mlast)
    (hblock : (isRead mlast && mlast.createdDay != today) = false) :
    sendOf sm h' today ctx = [] := by
  unfold sendOf canSend
  simp [hls, hblock]

/-- With no scheduled message missing, there is nothing to send. -/
theorem sendOf_eq_nil_of_none_missing {γ : Type} (sm : ScheduledMessages γ)
    (h' : List ClubMessage) (today : Nat) (ctx : γ)
    (hfind : sm.find? (fun p => (lastMarked p.1 h').isNone) = none) :
    sendOf sm h' today ctx = [] := by
  unfold sendOf
  simp [hfind]

/-- After the edits, every scheduled message present in the edited history
matches its generator output. -/
theorem edits_good_after {γ : Type} {sm : ScheduledMessages γ}
    {history : List ClubMessage} {ctx : γ}
    (hids : (history.map ClubMessage.id).Nodup)
    (hmk : (sm.map Prod.fst).Nodup) :
    ∀ p ∈ sm, ∀ mt',
      lastMarked p.1 (history.map (editMsg (editsOf sm history ctx))) = some mt' →
      mt'.content = render p.1 (p.2 ctx) := by
  intro p hp mt' hlm'
  rw [lastMarked_map_edits hids hmk p.1] at hlm'
  rcases hlm0 : lastMarked p.1 history with _ | mt
  · rw [hlm0] at hlm'
    cases hlm'
  · rw [hlm0] at hlm'
    have hFmt : editMsg (editsOf sm history ctx) mt = mt' := by
      rw [Option.map_some'] at hlm'
      injection hlm'
    rw [← hFmt]
    exact editMsg_editsOf_content hids hmk hp hlm0

/-- Replaying on a history that matches all generator outputs and has just
received the first missing scheduled message produces nothing. -/
theorem prepare_after_send {γ : Type} (sm : ScheduledMessages γ)
    (hist2 : List ClubMessage) (today newId : Nat) (ctx : γ)
    (p₀ : Char × (γ → List Char)) (hp₀ : p₀ ∈ sm)
    (hmk : (sm.map Prod.fst).Nodup)
    (hgood : ∀ p ∈ sm, ∀ mt, lastMarked p.1 hist2 = some mt →
      mt.content = render p.1 (p.2 ctx)) :
    prepare_messages (hist2 ++ [newMessage newId today (render p₀.1 (p₀.2 ctx))])
      sm today ctx = [] := by
  have hminj := List.inj_on_of_nodup_map hmk
  have hlm_app : ∀ e : Char,
      lastMarked e (hist2 ++ [newMessage newId today (render p₀.1 (p₀.2 ctx))]) =
        if e = p₀.1 then some (newMessage newId today (render p₀.1 (p₀.2 ctx)))
        else lastMarked e hist2 := by
    intro e
    unfold lastMarked
    rw [List.filter_append]
    by_cases he : e = p₀.1
    · rw [if_pos he]
      have hone : List.filter
          (fun m => m.authorId == JUNIORGURU_BOT && m.content.head? == some e)
          [newMessage newId today (render p₀.1 (p₀.2 ctx))] =
          [newMessage newId today (render p₀.1 (p₀.2 ctx))] := by
        simp [newMessage, render, he]
      rw [hone, List.getLast?_concat]
    · rw [if_neg he]
      have hne : p₀.1 ≠ e := fun h => he h.symm
      have hzero : List.filter
          (fun m => m.authorId == JUNIORGURU_BOT && m.content.head? == some e)
          [newMessage newId today (render p₀.1 (p₀.2 ctx))] = [] := by
        simp [newMessage, render, hne]
      rw [hzero, List.append_nil]
  have hgood' : ∀ p ∈ sm, ∀ mt,
      lastMarked p.1 (hist2 ++ [newMessage newId today (render p₀.1 (p₀.2 ctx))]) =
        some mt → mt.content = render p.1 (p.2 ctx) := by
    intro p hp mt hlm
    rw [hlm_app p.1] at hlm
    by_cases hpp : p.1 = p₀.1
    · rw [if_pos hpp] at hlm
      injection hlm with h
      have hqp : p = p₀ := hminj hp hp₀ hpp
      rw [← h, hqp]
      rfl
    · rw [if_neg hpp] at hlm
      exact hgood p hp mt hlm
  have hls : lastScheduled sm
      (hist2 ++ [newMessage newId today (render p₀.1 (p₀.2 ctx))]) =
      some (newMessage newId today (render p₀.1 (p₀.2 ctx))) := by
    unfold lastScheduled
    rw [List.filter_append]
    have hany : (sm.any fun p =>
        (newMessage newId today (render p₀.1 (p₀.2 ctx))).content.head? == some p.1) =
        true :=
      List.any_eq_true.mpr ⟨p₀, hp₀, by simp [newMessage, render]⟩
    have hone : List.filter
        (fun m => m.authorId == JUNIORGURU_BOT &&
          sm.any (fun p => m.content.head? == some p.1))
        [newMessage newId today (render p₀.1 (p₀.2 ctx))] =
        [newMessage newId today (render p₀.1 (p₀.2 ctx))] := by
      simp only [List.filter_cons, List.filter_nil]
      rw [show ((newMessage newId today (render p₀.1 (p₀.2 ctx))).authorId ==
          JUNIORGURU_BOT &&
          sm.any (fun p =>
            (newMessage newId today (render p₀.1 (p₀.2 ctx))).content.head? ==
              some p.1)) = true from by
        rw [Bool.and_eq_true]
        exact ⟨by simp [newMessage], hany⟩]
      rw [if_pos rfl]
    rw [hone, List.getLast?_concat]
  unfold prepare_messages
  rw [editsOf_eq_nil sm _ ctx hgood', List.nil_append]
  refine sendOf_eq_nil_of_blocked sm _ today ctx _ hls ?_
  simp [isRead, newMessage]

/-- C3: message replay is idempotent — after applying the operations
`prepare_messages` emits (edits by id, one send appended), a second run on the
updated history emits nothing at all: no duplicate sends and no further edits. -/
theorem prepare_messages_idempotent {γ : Type} (history : List ClubMessage)
    (sm : ScheduledMessages γ) (today newId : Nat) (ctx : γ)
    (hids : (history.map ClubMessage.id).Nodup)
    (hmk : (sm.map Prod.fst).Nodup) :
    prepare_messages
      (applyOps today newId history (prepare_messages history sm today ctx))
      sm today ctx = [] := by
  have hEsome : ∀ op ∈ editsOf sm history ctx, op.1.isSome = true := by
    intro op hop
    rcases mem_editsOf hop with ⟨q, hq, mt', h1, h2, hopeq⟩
    rw [hopeq]
    rfl
  have happly : applyOps today newId history (prepare_messages history sm today ctx) =
      applyOps today newId (history.map (editMsg (editsOf sm history ctx)))
        (sendOf sm history today ctx) := by
    show applyOps today newId history
      (editsOf sm history ctx ++ sendOf sm history today ctx) = _
    unfold applyOps
    rw [List.foldl_append]
    congr 1
    exact applyOps_eq_map today newId _ history hEsome
  rw [happly]
  have hgood1 := @edits_good_after γ sm history ctx hids hmk
  cases hcs : canSend sm history today with
  | false =>
      have hS : sendOf sm history today ctx = [] := by
        unfold sendOf
        simp [hcs]
      rw [hS]
      show prepare_messages (history.map (editMsg (editsOf sm history ctx)))
        sm today ctx = []
      unfold prepare_messages
      rw [editsOf_eq_nil sm _ ctx hgood1, List.nil_append]
      unfold canSend at hcs
      rcases hls0 : lastScheduled sm history with _ | mlast
      · simp only [hls0] at hcs
        cases hcs
      · simp only [hls0] at hcs
        have hls1 : lastScheduled sm (history.map (editMsg (editsOf sm history ctx))) =
            some (editMsg (editsOf sm history ctx) mlast) := by
          rw [lastScheduled_map_edits hids hmk, hls0]
          rfl
        refine sendOf_eq_nil_of_blocked sm _ today ctx _ hls1 ?_
        have hf := editMsg_fields (editsOf sm history ctx) mlast
        have hread : isRead (editMsg (editsOf sm history ctx) mlast) = isRead mlast := by
          unfold isRead
          rw [hf.2.2.2]
        rw [hread, hf.2.2.1]
        exact hcs
  | true =>
      cases hfind : sm.find? (fun p => (lastMarked p.1 history).isNone) with
      | none =>
          have hS : sendOf sm history today ctx = [] := by
            unfold sendOf
            simp [hcs, hfind]
          rw [hS]
          show prepare_messages (history.map (editMsg (editsOf sm history ctx)))
            sm today ctx = []
          unfold prepare_messages
          rw [editsOf_eq_nil sm _ ctx hgood1, List.nil_append]
          refine sendOf_eq_nil_of_none_missing sm _ today ctx ?_
          rw [List.find?_eq_none]
          intro p hp hbn
          have hnone := List.find?_eq_none.mp hfind p hp
          rw [lastMarked_map_edits hids hmk] at hbn
          rcases hlm0 : lastMarked p.1 history with _ | mt
          · exact hnone (by rw [hlm0]; rfl)
          · rw [hlm0] at hbn
            simp at hbn
      | some p₀ =>
          have hp₀ := List.mem_of_find?_eq_some hfind
          have hS : sendOf sm history today ctx = [(none, render p₀.1 (p₀.2 ctx))] := by
            unfold sendOf
            simp [hcs, hfind]
          rw [hS]
          show prepare_messages
            ((history.map (editMsg (editsOf sm history ctx))) ++
              [newMessage newId today (render p₀.1 (p₀.2 ctx))]) sm today ctx = []
          exact prepare_after_send sm _ today newId ctx p₀ hp₀ hmk hgood1

/-- Witness for C3 at the repository's `history_with_edits` test scenario:
after applying the two edits and the send, a re-run emits nothing. -/
theorem prepare_messages_idempotent_witness :
    prepare_messages
      (applyOps testToday 99
        [botMsg 1 "👋 Outdated message" 1 false, botMsg 2 "🌯 Second message" 1 false,
         botMsg 3 "💤 Third message" 1 false, botMsg 4 "🆗 Outdated message" 1 false]
        (prepare_messages
          [botMsg 1 "👋 Outdated message" 1 false, botMsg 2 "🌯 Second message" 1 false,
           botMsg 3 "💤 Third message" 1 false, botMsg 4 "🆗 Outdated message" 1 false]
          testScheduled testToday ()))
      testScheduled testToday () = [] :=
  prepare_messages_idempotent
    [botMsg 1 "👋 Outdated message" 1 false, botMsg 2 "🌯 Second message" 1 false,
     botMsg 3 "💤 Third message" 1 false, botMsg 4 "🆗 Outdated message" 1 false]
    testScheduled testToday 99 () (by decide) (by decide)

/-- Every edit operation carries a message id. -/
theorem editsOf_isSome {γ : Type} (sm : ScheduledMessages γ) (history : List ClubMessage)
    (ctx : γ) : ∀ op ∈ editsOf sm history ctx, op.1.isSome = true := by
  intro op hop
  rcases mem_editsOf hop with ⟨q, hq, mt', h1, h2, hopeq⟩
  rw [hopeq]
  rfl

/-- The send batch is empty or a single id-less operation. -/
theorem sendOf_shape {γ : Type} (sm : ScheduledMessages γ) (h' : List ClubMessage)
    (today : Nat) (ctx : γ) :
    sendOf sm h' today ctx = [] ∨ ∃ c, sendOf sm h' today ctx = [(none, c)] := by
  unfold sendOf
  by_cases hc : canSend sm h' today = true
  · rw [if_pos hc]
    rcases hf : sm.find? (fun p => (lastMarked p.1 h').isNone) with _ | p
    · simp only [hf]
      left
      trivial
    · simp only [hf]
      right
      exact ⟨render p.1 (p.2 ctx), rfl⟩
  · rw [if_neg hc]
    left
    rfl

/-- C4: at most one send operation per run; a last scheduled message that is
unread or was created today suppresses sends entirely (every emitted operation
is an edit); the id-carrying operations are exactly the edits, whose
computation never consults dates; and a present scheduled message whose
content mismatches its generator output is always edited, regardless of any
date or read state. -/
theorem prepare_messages_daily_cap {γ : Type} (history : List ClubMessage)
    (sm : ScheduledMessages γ) (today : Nat) (ctx : γ) :
    ((prepare_messages history sm today ctx).countP (fun op => op.1.isNone)) ≤ 1 ∧
    (∀ m, lastScheduled sm history = some m →
      (m.createdDay = today ∨ isRead m = false) →
      ∀ op ∈ prepare_messages history sm today ctx, op.1.isSome = true) ∧
    ((prepare_messages history sm today ctx).filter (fun op => op.1.isSome) =
      editsOf sm history ctx) ∧
    (∀ p ∈ sm, ∀ m, lastMarked p.1 history = some m →
      m.content ≠ render p.1 (p.2 ctx) →
      (some m.id, render p.1 (p.2 ctx)) ∈ prepare_messages history sm today ctx) := by
  have hcount0 : (editsOf sm history ctx).countP (fun op => op.1.isNone) = 0 := by
    rw [List.countP_eq_zero]
    intro op hop hbn
    have := editsOf_isSome sm history ctx op hop
    rw [Option.isNone_iff_eq_none] at hbn
    rw [hbn] at this
    cases this
  refine ⟨?_, fun m hls hcase op hop => ?_, ?_, fun p hp m hlm hne => ?_⟩
  · show ((editsOf sm history ctx ++ sendOf sm history today ctx).countP
      (fun op => op.1.isNone)) ≤ 1
    rw [List.countP_append, hcount0, Nat.zero_add]
    rcases sendOf_shape sm history today ctx with h | ⟨c, h⟩ <;> rw [h] <;> simp
  · have hblock : (isRead m && m.createdDay != today) = false := by
      rcases hcase with h | h
      · rw [h]
        simp
      · rw [h]
        rfl
    have hS : sendOf sm history today ctx = [] :=
      sendOf_eq_nil_of_blocked sm history today ctx m hls hblock
    unfold prepare_messages at hop
    rw [hS, List.append_nil] at hop
    exact editsOf_isSome sm history ctx op hop
  · show (editsOf sm history ctx ++ sendOf sm history today ctx).filter
      (fun op => op.1.isSome) = editsOf sm history ctx
    rw [List.filter_append]
    have h1 : (editsOf sm history ctx).filter (fun op => op.1.isSome) =
        editsOf sm history ctx :=
      List.filter_eq_self.mpr (editsOf_isSome sm history ctx)
    have h2 : (sendOf sm history today ctx).filter (fun op => op.1.isSome) = [] := by
      rcases sendOf_shape sm history today ctx with h | ⟨c, h⟩ <;> rw [h] <;> rfl
    rw [h1, h2, List.append_nil]
  · show (some m.id, render p.1 (p.2 ctx)) ∈
      editsOf sm history ctx ++ sendOf sm history today ctx
    refine List.mem_append.mpr (Or.inl ?_)
    unfold editsOf
    refine List.mem_filterMap.mpr ⟨p, hp, ?_⟩
    simp only [hlm]
    rw [if_neg hne]

/-- Witness for C4 at the repository's `edit_messages_regardless_of_dates`
scenario: the outdated first message is edited although the last scheduled
message was posted today. -/
theorem prepare_messages_daily_cap_witness :
    ((some 1 : Option Nat), render '👋' "First message".data) ∈
      prepare_messages
        [botMsg 1 "👋 Outdated message" 97 false, botMsg 2 "🌯 Second message" 98 false,
         botMsg 3 "💤 Third message" 99 false, botMsg 4 "🆗 Outdated message" 100 false]
        testScheduled testToday () :=
  (prepare_messages_daily_cap
    [botMsg 1 "👋 Outdated message" 97 false, botMsg 2 "🌯 Second message" 98 false,
     botMsg 3 "💤 Third message" 99 false, botMsg 4 "🆗 Outdated message" 100 false]
    testScheduled testToday ()).2.2.2
    ('👋', fun _ => "First message".data) (List.mem_cons_self _ _)
    (botMsg 1 "👋 Outdated message" 97 false) (by decide) (by decide)

end JuniorGuru
